import Mathlib

/-!
Verification development for the AP-Delimitation map script (src/map.py).

The script is a pandas/geopandas pipeline: a key normalizer, a shapefile
loader with best-effort reprojection, a CSV loader, a left merge of
geometry and tabular rows, a groupby aggregation that recomputes party
vote shares and turnout-weighted demographic averages, and a dissolve of
village polygons into assembly-constituency polygons.

The shallow embedding models a pandas DataFrame as a list of rows, a row
being an association list from column names to cells.  A cell is missing
(NaN/None), a rational number (every value pandas coerces to a numeric,
including numeric strings), a non-numeric string, or an infinity (the
result of float division by zero).  Floating point results of the
pipeline are modelled by exact rationals extended with NaN and the two
infinities (PFloat below); `pandas.to_numeric(errors="coerce")` is
modelled by `toNum`, missing-skipping sums by `sumCol` (min_count=0) and
`sumMin1` (min_count=1).
-/

namespace APMap

/-- One cell of a DataFrame: missing (NaN/None), numeric, a non-numeric
string, or an IEEE infinity produced by dividing a nonzero float by zero. -/
inductive Cell where
  | na : Cell
  | num : ℚ → Cell
  | str : List Char → Cell
  | pinf : Cell
  | ninf : Cell
deriving DecidableEq

/-- A DataFrame row: association list from column name to cell. -/
abbrev Rowl := List (String × Cell)

/-- A DataFrame: the column list plus the rows. -/
structure DF where
  cols : List String
  rows : List Rowl
deriving DecidableEq

/-- Reading a column of a row; a column the row does not carry reads as
missing. -/
def getCell (r : Rowl) (c : String) : Cell :=
  match r.find? (fun p => decide (p.1 = c)) with
  | some p => p.2
  | none => Cell.na

/-- `src/map.py` line 25. -/
def TOTAL_VOTES_COL : String := "total_votes"

/-- `src/map.py` line 26. -/
def PARTY_COUNT_COLS : List String :=
  ["TDP_votes", "YSRCP_votes", "BJP_votes", "Others_votes"]

/-- `src/map.py` line 27. -/
def PARTY_SHARE_COLS : List String :=
  ["TDP_vote_share", "YSRCP_vote_share", "BJP_vote_share", "Others"]

/-- `src/map.py` line 28. -/
def DEFAULT_CASTE_COLS : List String :=
  ["SC_pct", "ST_pct", "OBC_pct", "BC_pct", "OC_pct", "Minority_pct"]

/-! ## Key normalizer (`_normalize_key`, src/map.py lines 33-37)

Strings are modelled as lists of characters.  Python's whitespace set is
modelled by the characters the script can meet: space, tab, newline,
carriage return, vertical tab, form feed and the non-breaking space
U+00A0 (`str.strip` and the regex class match all of these).  Python's
`str.upper` is modelled on the ASCII letters by an explicit table. -/

/-- The non-breaking space U+00A0. -/
def nbsp : Char := Char.ofNat 160

/-- The ordinary space. -/
def spc : Char := Char.ofNat 32

/-- The modelled whitespace characters. -/
def pyWsChars : List Char :=
  [Char.ofNat 32, Char.ofNat 9, Char.ofNat 10, Char.ofNat 13,
   Char.ofNat 11, Char.ofNat 12, Char.ofNat 160]

/-- Whether a character is whitespace. -/
def isWs (c : Char) : Bool := pyWsChars.contains c

/-- The ASCII lower/upper case table modelling `str.upper`. -/
def lowerUpperPairs : List (Char × Char) :=
  [('a', 'A'), ('b', 'B'), ('c', 'C'), ('d', 'D'), ('e', 'E'), ('f', 'F'),
   ('g', 'G'), ('h', 'H'), ('i', 'I'), ('j', 'J'), ('k', 'K'), ('l', 'L'),
   ('m', 'M'), ('n', 'N'), ('o', 'O'), ('p', 'P'), ('q', 'Q'), ('r', 'R'),
   ('s', 'S'), ('t', 'T'), ('u', 'U'), ('v', 'V'), ('w', 'W'), ('x', 'X'),
   ('y', 'Y'), ('z', 'Z')]

/-- Upper-casing one character (ASCII model of `str.upper`). -/
def upperChar (c : Char) : Char :=
  match lowerUpperPairs.find? (fun p => decide (p.1 = c)) with
  | some p => p.2
  | none => c

/-- `str.strip()`: drop leading and trailing whitespace. -/
def stripWs (l : List Char) : List Char :=
  ((l.dropWhile isWs).reverse.dropWhile isWs).reverse

/-- `.replace(" ", " ")`. -/
def replaceNbsp (l : List Char) : List Char :=
  l.map (fun c => if c = nbsp then spc else c)

/-- The worker of `collapseWs`: the flag records whether the previous
character was whitespace (in which case further whitespace of the same
run is dropped). -/
def collapseWsAux : Bool → List Char → List Char
  | _, [] => []
  | prevWs, c :: rest =>
    if isWs c then
      if prevWs then collapseWsAux true rest
      else spc :: collapseWsAux true rest
    else c :: collapseWsAux false rest

/-- `re.sub(r"\s+", " ", s)`: each maximal whitespace run becomes one
ordinary space. -/
def collapseWs (l : List Char) : List Char := collapseWsAux false l

/-- `.upper()` over a whole string. -/
def upperStr (l : List Char) : List Char := l.map upperChar

/-- The string branch of `_normalize_key`: strip, replace non-breaking
spaces, collapse whitespace runs, upper-case. -/
def normOutput (s : List Char) : List Char :=
  upperStr (collapseWs (replaceNbsp (stripWs s)))

/-- `_normalize_key` (src/map.py lines 33-37): missing input gives the
canonical null marker, a string is stripped, its non-breaking spaces
replaced, its whitespace runs collapsed, and upper-cased. -/
def _normalize_key : Option (List Char) → Option (List Char)
  | none => none
  | some s => some (normOutput s)

/-- A string that does not begin with whitespace. -/
def noLeadWs (l : List Char) : Bool :=
  match l.head? with
  | none => true
  | some c => !isWs c

/-- A string that does not end with whitespace. -/
def noTrailWs (l : List Char) : Bool :=
  match l.getLast? with
  | none => true
  | some c => !isWs c

/-- Every whitespace character of the string is the ordinary space. -/
def allWsSpc (l : List Char) : Bool :=
  l.all (fun c => !isWs c || decide (c = spc))

/-- No two adjacent whitespace characters. -/
def NoDub (l : List Char) : Prop :=
  l.Chain' (fun a b => ¬(isWs a = true ∧ isWs b = true))

/-! ## Numeric coercion and per-group sums (`ac_aggregate`, src/map.py 61-95) -/

/-- `pd.to_numeric(errors="coerce")` on one cell: numeric cells keep their
value (the `num` constructor stands for every value pandas can coerce,
numeric strings included), everything else becomes missing. -/
def toNum : Cell → Option ℚ
  | Cell.num q => some q
  | _ => none

/-- Writing the coerced value back into the cell. -/
def coerceCell (c : Cell) : Cell :=
  match toNum c with
  | some q => Cell.num q
  | none => Cell.na

/-- Column assignment inside one row: replace the cell if the row carries
the column, append it otherwise. -/
def setCell (r : Rowl) (c : String) (v : Cell) : Rowl :=
  if r.any (fun p => decide (p.1 = c)) then
    r.map (fun p => if p.1 = c then (p.1, v) else p)
  else r ++ [(c, v)]

/-- `work[c] = pd.to_numeric(work[c], errors="coerce")`, guarded by
`if c in work.columns` as in the source (lines 64-66). -/
def setColNum (df : DF) (c : String) : DF :=
  if c ∈ df.cols then
    { df with rows := df.rows.map (fun r => setCell r c (coerceCell (getCell r c))) }
  else df

/-- The coercion loop of `ac_aggregate` (lines 62-66); `df_in.copy()` is
the identity at this value level. -/
def coerceWork (df : DF) : DF :=
  (([TOTAL_VOTES_COL] ++ PARTY_COUNT_COLS) ++ PARTY_SHARE_COLS).foldl setColNum df

/-- The distinct values of the grouping column, missing kept as its own
group (`groupby(group_key, dropna=False)`, line 68). -/
def distinctKeysAll (df : DF) (gk : String) : List Cell :=
  (df.rows.map (fun r => getCell r gk)).dedup

/-- The rows of one group. -/
def groupRows (df : DF) (gk : String) (v : Cell) : List Rowl :=
  df.rows.filter (fun r => decide (getCell r gk = v))

/-- A groupby `"sum"` of one column (lines 68-74): missing values are
skipped and an all-missing column sums to 0 (pandas min_count=0). -/
def sumCol (rows : List Rowl) (c : String) : ℚ :=
  (rows.map (fun r => (toNum (getCell r c)).getD 0)).sum

/-! ## Float results: rationals extended with NaN and infinities -/

/-- A pandas float: NaN, an infinity, or an exact number. -/
inductive PFloat where
  | nan : PFloat
  | pinf : PFloat
  | ninf : PFloat
  | num : ℚ → PFloat
deriving DecidableEq

/-- Rounding to two decimal places, the model of `.round(2)`. -/
def round2 (q : ℚ) : ℚ := (round (q * 100) : ℤ) / 100

/-- Float division of two numbers: `0/0` is NaN, `x/0` an infinity of the
sign of `x`. -/
def floatDiv (a b : ℚ) : PFloat :=
  if b = 0 then
    (if a = 0 then PFloat.nan else if 0 < a then PFloat.pinf else PFloat.ninf)
  else PFloat.num (a / b)

/-- `* 100` on a float: NaN and the infinities are absorbed. -/
def pfMul100 : PFloat → PFloat
  | PFloat.num q => PFloat.num (q * 100)
  | x => x

/-- `.round(2)` on a float: NaN and the infinities round to themselves. -/
def pfRound2 : PFloat → PFloat
  | PFloat.num q => PFloat.num (round2 q)
  | x => x

/-- `.fillna(0)`: only NaN becomes 0; the infinities pass through. -/
def pfFillna0 : PFloat → PFloat
  | PFloat.nan => PFloat.num 0
  | x => x

/-- A float stored back into a DataFrame cell. -/
def pfToCell : PFloat → Cell
  | PFloat.nan => Cell.na
  | PFloat.pinf => Cell.pinf
  | PFloat.ninf => Cell.ninf
  | PFloat.num q => Cell.num q

/-- `(agg[cnt] / agg[TOTAL_VOTES_COL] * 100).round(2).fillna(0)`
(line 84), applied to the two group sums. -/
def shareOut (cnt tot : ℚ) : PFloat :=
  pfFillna0 (pfRound2 (pfMul100 (floatDiv cnt tot)))

/-- One recomputed share of one group: the count sum over the total sum. -/
def groupShare (rows : List Rowl) (pc : String) : PFloat :=
  shareOut (sumCol rows pc) (sumCol rows TOTAL_VOTES_COL)

/-- The output column of each recomputed share and the count column it is
built from (`share_map`, lines 77-82). -/
def share_map : List (String × String) :=
  [("TDP_share", "TDP_votes"), ("YSRCP_share", "YSRCP_votes"),
   ("BJP_share", "BJP_votes"), ("Others_share", "Others_votes")]

/-! ## Weighted demographic averages (lines 87-94) -/

/-- A `sum(min_count=1)`: missing values are skipped, and a sum with no
contributing value is missing instead of 0. -/
def sumMin1 (xs : List (Option ℚ)) : Option ℚ :=
  match xs.reduceOption with
  | [] => none
  | v :: vs => some ((v :: vs).sum)

/-- `(wdf[c] * wdf[TOTAL_VOTES_COL]).groupby(...).sum(min_count=1)` for
one group: the product is missing when either factor is. -/
def weightedNum (rows : List Rowl) (c : String) : Option ℚ :=
  sumMin1 (rows.map (fun r =>
    (toNum (getCell r c)).bind (fun a =>
      (toNum (getCell r TOTAL_VOTES_COL)).map (fun b => a * b))))

/-- `wdf.groupby(...)[TOTAL_VOTES_COL].sum(min_count=1)` for one group. -/
def weightedDen (rows : List Rowl) : Option ℚ :=
  sumMin1 (rows.map (fun r => toNum (getCell r TOTAL_VOTES_COL)))

/-- `(num / den * 1.0).round(2)` for one group: a missing numerator or
denominator propagates to NaN. -/
def weightedVal (rows : List Rowl) (c : String) : PFloat :=
  match weightedNum rows c, weightedDen rows with
  | some n, some d => pfRound2 (floatDiv n d)
  | _, _ => PFloat.nan

/-- The grouped weighted series of one caste column: indexed by the group
key values. -/
def wSeries (work : DF) (gk c : String) (keys : List Cell) : List (Cell × PFloat) :=
  keys.map (fun v => (v, weightedVal (groupRows work gk v) c))

/-- `agg[c + "_weighted"] = series` (line 94): pandas aligns the assigned
series on the frame's index by LABEL.  `agg` carries the integer range
index left by `reset_index()`, while the series is indexed by the group
key values, so row `i` receives the series value whose key label equals
the integer label `i` - and missing otherwise. -/
def alignedLookup (series : List (Cell × PFloat)) (lbl : Cell) : Cell :=
  match series.find? (fun p => decide (p.1 = lbl)) with
  | some p => pfToCell p.2
  | none => Cell.na

/-- `ac_aggregate` (src/map.py lines 61-95), value level: coerce the
numeric columns, group by the chosen key with missing keys kept, sum the
total and the party counts, recompute the four shares from the sums, and
attach each present caste column's weighted series by index alignment. -/
def ac_aggregate (df_in : DF) (group_key : String) (caste_cols : List String) : DF :=
  let work := coerceWork df_in
  let keys := distinctKeysAll work group_key
  let presentCaste := caste_cols.filter (fun c => decide (c ∈ work.cols))
  { cols := (["AC_key", TOTAL_VOTES_COL] ++ PARTY_COUNT_COLS)
        ++ share_map.map Prod.fst ++ presentCaste.map (fun c => c ++ "_weighted"),
    rows := keys.enum.map (fun iv =>
      let rs := groupRows work group_key iv.2
      ([("AC_key", iv.2), (TOTAL_VOTES_COL, Cell.num (sumCol rs TOTAL_VOTES_COL))]
        ++ PARTY_COUNT_COLS.map (fun pc => (pc, Cell.num (sumCol rs pc))))
      ++ share_map.map (fun oc => (oc.1, pfToCell (groupShare rs oc.2)))
      ++ presentCaste.map (fun c =>
           (c ++ "_weighted",
            alignedLookup (wSeries work group_key c keys) (Cell.num (iv.1 : ℚ))))) }

/-- `CASTE_COLS = [c for c in DEFAULT_CASTE_COLS if c in df.columns]`
(src/map.py line 104). -/
def casteColsOf (df : DF) : List String :=
  DEFAULT_CASTE_COLS.filter (fun c => decide (c ∈ df.cols))

/-! ## Village merge (src/map.py lines 110-112) -/

/-- `series.duplicated().any()`: some value occurs twice (pandas treats
missing keys as equal to each other here, as does `Cell.na` equality). -/
def hasDup : List Cell → Bool
  | [] => false
  | k :: rest => rest.contains k || hasDup rest

/-- The all-missing attribute row an unmatched geometry row receives. -/
def nullRowFor (cols : List String) : Rowl := cols.map (fun c => (c, Cell.na))

/-- The row block of the left merge, right side unique: each left row is
extended by its matching right row, or by missing attributes. -/
def mergeRows (g d : DF) (lk rk : String) : DF :=
  { cols := g.cols ++ d.cols,
    rows := g.rows.map (fun r =>
      match d.rows.find? (fun dr => decide (getCell dr rk = getCell r lk)) with
      | some dr => r ++ dr
      | none => r ++ nullRowFor d.cols) }

/-- `gdf.merge(df, left_on=..., right_on=..., how="left", validate=mode)`
with `mode = "m:1" if gdf[key].duplicated().any() else "1:1"` (lines
110-112).  `validate="m:1"` demands the right keys unique; `"1:1"`
demands both sides unique; a violation raises `MergeError`. -/
def leftMerge (g d : DF) (lk rk : String) : Except String DF :=
  let leftKeys := g.rows.map (fun r => getCell r lk)
  let rightKeys := d.rows.map (fun r => getCell r rk)
  if hasDup leftKeys then
    -- merge_mode = "m:1": only the right side is validated
    if hasDup rightKeys then Except.error "MergeError"
    else Except.ok (mergeRows g d lk rk)
  else
    -- merge_mode = "1:1": both sides are validated
    if hasDup leftKeys || hasDup rightKeys then Except.error "MergeError"
    else Except.ok (mergeRows g d lk rk)

/-! ## AC dissolve (src/map.py lines 166-174)

`merged[[group_key, "geometry"]]` is modelled as a list of
(key, geometry) pairs; the geometry type and the geometric union are
parameters, the dissolve being pure bookkeeping around them.
`dissolve(by=group_key)` delegates to a groupby whose default
`dropna=True` DROPS the rows whose key is missing. -/

/-- `g_ac.dissolve(by=group_key, as_index=False)`: one output pair per
distinct non-missing key, its geometry the union of the group's
geometries. -/
def dissolve {G : Type} (U : List G → G) (rows : List (Cell × G)) : List (Cell × G) :=
  let keys := ((rows.map Prod.fst).filter (fun v => decide (v ≠ Cell.na))).dedup
  keys.map (fun v => (v, U ((rows.filter (fun p => decide (p.1 = v))).map Prod.snd)))

/-- `ac_gdf = g_ac.merge(ac_stats, on=group_key, how="left")` (line 174):
each dissolved record picks up the aggregate row of its key, or missing
attributes when the aggregate has none. -/
def acJoinStats {G : Type} (d : List (Cell × G)) (stats : DF) (k : String) :
    List (Cell × G × Rowl) :=
  d.map (fun p =>
    (p.1, p.2,
     match stats.rows.find? (fun r => decide (getCell r k = p.1)) with
     | some r => r
     | none => nullRowFor stats.cols))

/-! ## Shapefile loader (src/map.py lines 39-50) -/

/-- A GeoDataFrame: attribute rows, a parallel list of geometries, and an
optional EPSG code for the coordinate reference system. -/
structure GeoDF (G : Type) where
  df : DF
  geoms : List G
  crs : Option Int

/-- `gdf[key] = gdf[key].map(_normalize_key)` on the attribute table:
missing and string cells go through the key normalizer (the shapefile
key column is a string column). -/
def normalizeCellKey : Cell → Cell
  | Cell.na => Cell.na
  | Cell.str s =>
    match _normalize_key (some s) with
    | some t => Cell.str t
    | none => Cell.na
  | c => c

/-- The key-normalization line of `load_shapefile` (line 43). -/
def normalizeKeyCol {G : Type} (g : GeoDF G) (key_field : String) : GeoDF G :=
  { g with df := { g.df with
      rows := g.df.rows.map (fun r =>
        setCell r key_field (normalizeCellKey (getCell r key_field))) } }

/-- Lines 45-49: reproject unless the CRS is already EPSG:4326; the
attempt (`to_crs`, and the CRS inspection itself when the CRS is absent)
is a fallible external call, passed in as `reproject`; any failure is
swallowed and the data returned unmodified. -/
def ensureWgs84 {G : Type} (g : GeoDF G)
    (reproject : GeoDF G → Except String (GeoDF G)) : GeoDF G :=
  if g.crs = some 4326 then g
  else
    match reproject g with
    | Except.ok g2 => g2
    | Except.error _ => g

/-- `load_shapefile` (lines 39-50): read (the input itself), normalize
the key column, best-effort reproject. -/
def load_shapefile {G : Type} (g : GeoDF G) (key_field : String)
    (reproject : GeoDF G → Except String (GeoDF G)) : GeoDF G :=
  ensureWgs84 (normalizeKeyCol g key_field) reproject

/-! ## ac_aggregate at the heap level (frame property)

Python DataFrames are mutable values on a heap; `ac_aggregate` writes
only to `work = df_in.copy()` and to the per-column copies
`wdf = work[[...]].copy()`.  The heap is a list of DataFrames, a
reference an index into it; `copy` allocates, column assignment writes
in place. -/

/-- The heap of live DataFrames. -/
structure Store where
  heap : List DF
deriving DecidableEq

/-- Reading a reference. -/
def Store.get (s : Store) (r : Nat) : DF := s.heap.getD r ⟨[], []⟩

/-- Writing a reference in place. -/
def Store.set (s : Store) (r : Nat) (d : DF) : Store := ⟨s.heap.set r d⟩

/-- `copy()`: allocate a fresh DataFrame, returning its reference. -/
def Store.alloc (s : Store) (d : DF) : Store × Nat :=
  (⟨s.heap ++ [d]⟩, s.heap.length)

/-- `work[[group_key, c, TOTAL_VOTES_COL]]` column selection. -/
def selectCols (df : DF) (cs : List String) : DF :=
  { cols := cs,
    rows := df.rows.map (fun r => cs.map (fun c => (c, getCell r c))) }

/-- One step of the weighted-caste loop (lines 87-94) on the heap:
select and copy `wdf`, coerce its two columns in place, read the grouped
series off it. -/
def casteStep (gk : String) (keys : List Cell) (work : Nat)
    (acc : Store × List (String × List (Cell × PFloat))) (c : String) :
    Store × List (String × List (Cell × PFloat)) :=
  let s := acc.1
  if c ∈ (s.get work).cols then
    let sw := s.alloc (selectCols (s.get work) [gk, c, TOTAL_VOTES_COL])
    let s1 := sw.1
    let wr := sw.2
    let s2 := s1.set wr (setColNum (s1.get wr) c)
    let s3 := s2.set wr (setColNum (s2.get wr) TOTAL_VOTES_COL)
    (s3, acc.2 ++ [(c ++ "_weighted", wSeries (s3.get wr) gk c keys)])
  else (s, acc.2)

/-- `ac_aggregate` on the heap: `work = df_in.copy()`, the in-place
coercion loop on `work`, the grouped sums and shares read off `work`,
then the weighted-caste loop.  Returns the final heap and the aggregate
value. -/
def ac_aggregate_prog (s0 : Store) (dfRef : Nat) (group_key : String)
    (caste_cols : List String) : Store × DF :=
  let aw := s0.alloc (s0.get dfRef)
  let s1 := aw.1
  let work := aw.2
  let s2 := (([TOTAL_VOTES_COL] ++ PARTY_COUNT_COLS) ++ PARTY_SHARE_COLS).foldl
      (fun s c => s.set work (setColNum (s.get work) c)) s1
  let w := s2.get work
  let keys := distinctKeysAll w group_key
  let stepped := caste_cols.foldl (casteStep group_key keys work) (s2, [])
  let s3 := stepped.1
  let wcols := stepped.2
  (s3,
   { cols := (["AC_key", TOTAL_VOTES_COL] ++ PARTY_COUNT_COLS)
         ++ share_map.map Prod.fst ++ wcols.map Prod.fst,
     rows := keys.enum.map (fun iv =>
       let rs := groupRows w group_key iv.2
       ([("AC_key", iv.2), (TOTAL_VOTES_COL, Cell.num (sumCol rs TOTAL_VOTES_COL))]
         ++ PARTY_COUNT_COLS.map (fun pc => (pc, Cell.num (sumCol rs pc))))
       ++ share_map.map (fun oc => (oc.1, pfToCell (groupShare rs oc.2)))
       ++ wcols.map (fun wc =>
            (wc.1, alignedLookup wc.2 (Cell.num (iv.1 : ℚ))))) })

/-! ## Definitions written from the spec's words, for comparison -/

/-- Written from the spec's words for claim C2: share = (summed count /
summed total) x 100 rounded to 2 decimals; on a zero total the share
is 0 only when the count is 0 too - a positive count over a zero total
is the positive infinity of float division (the `.fillna(0)` of the code
replaces only NaN). -/
def specShareAmended (cnt tot : ℚ) : PFloat :=
  if tot = 0 then
    (if cnt = 0 then PFloat.num 0
     else if 0 < cnt then PFloat.pinf else PFloat.ninf)
  else PFloat.num (round2 (cnt / tot * 100))

/-! ## Concrete inputs used by counterexamples and witnesses -/

/-- The spec's weighted-average example: one constituency of two
villages, total votes 100 and 300, SC percentage 20 and 60. -/
def exTwoVillages : DF :=
  { cols := ["AC_name", TOTAL_VOTES_COL, "SC_pct"],
    rows := [[("AC_name", Cell.str ['X']), (TOTAL_VOTES_COL, Cell.num 100),
              ("SC_pct", Cell.num 20)],
             [("AC_name", Cell.str ['X']), (TOTAL_VOTES_COL, Cell.num 300),
              ("SC_pct", Cell.num 60)]] }

/-- A one-row geometry table with key "A". -/
def exGeomA : DF := { cols := ["id"], rows := [[("id", Cell.str ['A'])]] }

/-- A tabular table whose key "A" occurs twice. -/
def exTabDupA : DF :=
  { cols := ["region_code", "v"],
    rows := [[("region_code", Cell.str ['A']), ("v", Cell.num 1)],
             [("region_code", Cell.str ['A']), ("v", Cell.num 2)]] }

/-- A tabular table with distinct keys "A" and "B". -/
def exTabAB : DF :=
  { cols := ["region_code", "v"],
    rows := [[("region_code", Cell.str ['A']), ("v", Cell.num 1)],
             [("region_code", Cell.str ['B']), ("v", Cell.num 2)]] }

/-- A two-row geometry table, keys "A" and "C" ("C" unmatched). -/
def exGeomAC : DF :=
  { cols := ["id"],
    rows := [[("id", Cell.str ['A'])], [("id", Cell.str ['C'])]] }

/-- A concrete geometry collection for the loader claim: CRS absent. -/
def exGeo : GeoDF Nat :=
  { df := { cols := ["id"], rows := [[("id", Cell.str ['a'])]] },
    geoms := [7], crs := none }

/-- A reprojection that always fails. -/
def failReproject : GeoDF Nat → Except String (GeoDF Nat) :=
  fun _ => Except.error "ProjError"

/-- A one-DataFrame heap for the frame-property witness. -/
def exStore : Store := ⟨[exTwoVillages]⟩

/-! # Lemmas and claim theorems -/

section Claims

attribute [local semireducible] Rat.mul Rat.inv Rat.add Rat.sub

/-! ## Normalizer lemmas (claim C5) -/

lemma isWs_spc : isWs spc = true := by decide

lemma isWs_nbsp : isWs nbsp = true := by decide

lemma upperChar_ws (c : Char) : isWs (upperChar c) = isWs c := by
  have hall : ∀ q ∈ lowerUpperPairs, isWs q.1 = false ∧ isWs q.2 = false := by decide
  unfold upperChar
  cases h : lowerUpperPairs.find? (fun p => decide (p.1 = c)) with
  | none => rfl
  | some p =>
    have hm := List.mem_of_find?_eq_some h
    have hpc : p.1 = c := by simpa using List.find?_some h
    rw [← hpc, (hall p hm).1, (hall p hm).2]

lemma upperChar_of_find?_none {c : Char}
    (h : lowerUpperPairs.find? (fun p => decide (p.1 = c)) = none) :
    upperChar c = c := by
  unfold upperChar
  rw [h]

lemma upperChar_idem (c : Char) : upperChar (upperChar c) = upperChar c := by
  have hall : ∀ q ∈ lowerUpperPairs,
      lowerUpperPairs.find? (fun p => decide (p.1 = q.2)) = none := by decide
  cases h : lowerUpperPairs.find? (fun p => decide (p.1 = c)) with
  | none =>
    rw [upperChar_of_find?_none h, upperChar_of_find?_none h]
  | some p =>
    have hm := List.mem_of_find?_eq_some h
    have h1 : upperChar c = p.2 := by unfold upperChar; rw [h]
    rw [h1, upperChar_of_find?_none (hall p hm)]

lemma noLeadWs_dropWhile (l : List Char) : noLeadWs (l.dropWhile isWs) = true := by
  induction l with
  | nil => rfl
  | cons c t ih =>
    by_cases h : isWs c = true
    · rw [List.dropWhile_cons_of_pos h]; exact ih
    · rw [List.dropWhile_cons_of_neg h]
      simp [noLeadWs, h]

lemma dropWhile_eq_self_of_noLead {l : List Char} (h : noLeadWs l = true) :
    l.dropWhile isWs = l := by
  cases l with
  | nil => rfl
  | cons c t =>
    have hc : ¬ isWs c = true := by simpa [noLeadWs] using h
    exact List.dropWhile_cons_of_neg hc

lemma noTrailWs_reverse (l : List Char) : noTrailWs l.reverse = noLeadWs l := by
  simp [noTrailWs, noLeadWs, List.getLast?_reverse]

lemma noLeadWs_reverse (l : List Char) : noLeadWs l.reverse = noTrailWs l := by
  simp [noTrailWs, noLeadWs, List.head?_reverse]

lemma noTrailWs_cons_cons {c x : Char} {t : List Char} :
    noTrailWs (c :: x :: t) = noTrailWs (x :: t) := by
  simp [noTrailWs, List.getLast?_cons_cons]

lemma noTrailWs_dropWhile {l : List Char} (h : noTrailWs l = true) :
    noTrailWs (l.dropWhile isWs) = true := by
  induction l with
  | nil => rfl
  | cons c t ih =>
    by_cases hc : isWs c = true
    · rw [List.dropWhile_cons_of_pos hc]
      cases t with
      | nil => simp [noTrailWs, hc] at h
      | cons x t' => exact ih (by rwa [noTrailWs_cons_cons] at h)
    · rwa [List.dropWhile_cons_of_neg hc]

lemma stripWs_noLead (l : List Char) : noLeadWs (stripWs l) = true := by
  unfold stripWs
  rw [noLeadWs_reverse]
  apply noTrailWs_dropWhile
  rw [noTrailWs_reverse]
  exact noLeadWs_dropWhile l

lemma stripWs_noTrail (l : List Char) : noTrailWs (stripWs l) = true := by
  unfold stripWs
  rw [noTrailWs_reverse]
  exact noLeadWs_dropWhile _

lemma stripWs_eq_self {l : List Char} (h1 : noLeadWs l = true)
    (h2 : noTrailWs l = true) : stripWs l = l := by
  unfold stripWs
  rw [dropWhile_eq_self_of_noLead h1,
    dropWhile_eq_self_of_noLead (by rwa [noLeadWs_reverse]),
    List.reverse_reverse]

lemma isWs_replaceChar (c : Char) :
    isWs (if c = nbsp then spc else c) = isWs c := by
  by_cases h : c = nbsp
  · subst h; simp [isWs_spc, isWs_nbsp]
  · simp [h]

lemma noLeadWs_map {f : Char → Char} (hf : ∀ c, isWs (f c) = isWs c)
    (l : List Char) : noLeadWs (l.map f) = noLeadWs l := by
  cases l with
  | nil => rfl
  | cons c t => simp [noLeadWs, hf]

lemma noTrailWs_map {f : Char → Char} (hf : ∀ c, isWs (f c) = isWs c)
    (l : List Char) : noTrailWs (l.map f) = noTrailWs l := by
  rw [← noLeadWs_reverse, ← List.map_reverse, noLeadWs_map hf,
    noLeadWs_reverse]

lemma replaceNbsp_noLead {l : List Char} (h : noLeadWs l = true) :
    noLeadWs (replaceNbsp l) = true := by
  unfold replaceNbsp
  rwa [noLeadWs_map isWs_replaceChar]

lemma replaceNbsp_noTrail {l : List Char} (h : noTrailWs l = true) :
    noTrailWs (replaceNbsp l) = true := by
  unfold replaceNbsp
  rwa [noTrailWs_map isWs_replaceChar]

lemma replaceNbsp_eq_self {l : List Char} (h : allWsSpc l = true) :
    replaceNbsp l = l := by
  induction l with
  | nil => rfl
  | cons c t ih =>
    have h' : (!isWs c || decide (c = spc)) = true ∧ allWsSpc t = true := by
      simpa [allWsSpc] using h
    have hc : (if c = nbsp then spc else c) = c := by
      by_cases hn : c = nbsp
      · exfalso
        rcases Bool.or_eq_true_iff.mp h'.1 with hw | hs
        · rw [hn, isWs_nbsp] at hw; simp at hw
        · have : c = spc := by simpa using hs
          rw [hn] at this
          exact absurd this (by decide)
      · simp [hn]
    calc replaceNbsp (c :: t) = (if c = nbsp then spc else c) :: replaceNbsp t := rfl
      _ = c :: t := by rw [hc, ih h'.2]

lemma collapseWsAux_cons_neg {c : Char} {t : List Char} (b : Bool)
    (hc : ¬ isWs c = true) :
    collapseWsAux b (c :: t) = c :: collapseWsAux false t := by
  cases b <;> simp [collapseWsAux, hc]

lemma collapseWsAux_cons_pos_true {c : Char} {t : List Char}
    (hc : isWs c = true) :
    collapseWsAux true (c :: t) = collapseWsAux true t := by
  simp [collapseWsAux, hc]

lemma collapseWsAux_cons_pos_false {c : Char} {t : List Char}
    (hc : isWs c = true) :
    collapseWsAux false (c :: t) = spc :: collapseWsAux true t := by
  simp [collapseWsAux, hc]

lemma collapseWsAux_allWsSpc (l : List Char) :
    ∀ b, allWsSpc (collapseWsAux b l) = true := by
  induction l with
  | nil => intro b; rfl
  | cons c t ih =>
    intro b
    by_cases h : isWs c = true
    · cases b with
      | true => simpa [collapseWsAux, h] using ih true
      | false =>
        simp only [collapseWsAux, h, if_true, if_false, Bool.false_eq_true]
        simpa [allWsSpc] using ih true
    · simp only [collapseWsAux, h, if_false, Bool.false_eq_true]
      have := ih false
      simpa [allWsSpc, h] using this

lemma collapseWsAux_true_noLead (l : List Char) :
    noLeadWs (collapseWsAux true l) = true := by
  induction l with
  | nil => rfl
  | cons c t ih =>
    by_cases h : isWs c = true
    · simpa [collapseWsAux, h] using ih
    · simp [collapseWsAux, h, noLeadWs]

lemma collapseWsAux_false_noLead {l : List Char} (h : noLeadWs l = true) :
    noLeadWs (collapseWsAux false l) = true := by
  cases l with
  | nil => rfl
  | cons c t =>
    have hc : ¬ isWs c = true := by simpa [noLeadWs] using h
    simp [collapseWsAux, hc, noLeadWs]

lemma collapseWsAux_noDub (l : List Char) : ∀ b, NoDub (collapseWsAux b l) := by
  induction l with
  | nil => intro b; exact List.chain'_nil
  | cons c t ih =>
    intro b
    by_cases h : isWs c = true
    · cases b with
      | true => simpa [collapseWsAux, h] using ih true
      | false =>
        simp only [collapseWsAux, h, if_true, if_false, Bool.false_eq_true]
        refine List.chain'_cons'.mpr ⟨?_, ih true⟩
        intro y hy
        intro ⟨_, hwy⟩
        have hnl := collapseWsAux_true_noLead t
        cases hh : (collapseWsAux true t).head? with
        | none => rw [hh] at hy; exact absurd hy (by simp)
        | some z =>
          rw [hh] at hy
          have : z = y := by simpa using hy
          subst this
          cases hc : collapseWsAux true t with
          | nil => rw [hc] at hh; simp at hh
          | cons a u =>
            rw [hc] at hh
            have hz : a = z := by simpa using hh
            rw [hc] at hnl
            have : ¬ isWs a = true := by simpa [noLeadWs] using hnl
            rw [← hz] at hwy
            exact this hwy
    · simp only [collapseWsAux, h, if_false, Bool.false_eq_true]
      refine List.chain'_cons'.mpr ⟨?_, ih false⟩
      intro y hy
      intro ⟨hwc, _⟩
      exact h hwc

lemma collapseWsAux_true_ne_nil {l : List Char} (hne : l ≠ [])
    (h : noTrailWs l = true) : collapseWsAux true l ≠ [] := by
  induction l with
  | nil => exact absurd rfl hne
  | cons c t ih =>
    by_cases hc : isWs c = true
    · cases t with
      | nil => simp [noTrailWs, hc] at h
      | cons x t' =>
        have h' : noTrailWs (x :: t') = true := by rwa [noTrailWs_cons_cons] at h
        simpa [collapseWsAux, hc] using ih (by simp) h'
    · simp [collapseWsAux, hc]

lemma collapseWsAux_false_ne_nil {l : List Char} (hne : l ≠ []) :
    collapseWsAux false l ≠ [] := by
  cases l with
  | nil => exact absurd rfl hne
  | cons c t =>
    by_cases hc : isWs c = true
    · simp [collapseWsAux, hc]
    · simp [collapseWsAux, hc]

lemma noTrailWs_cons_of_tail {c : Char} {X : List Char} (hX : X ≠ [])
    (h : noTrailWs X = true) : noTrailWs (c :: X) = true := by
  cases X with
  | nil => exact absurd rfl hX
  | cons x t => rwa [noTrailWs_cons_cons]

lemma collapseWsAux_noTrail {l : List Char} (h : noTrailWs l = true) :
    ∀ b, noTrailWs (collapseWsAux b l) = true := by
  induction l with
  | nil => intro b; rfl
  | cons c t ih =>
    intro b
    cases t with
    | nil =>
      have hc : ¬ isWs c = true := by simpa [noTrailWs] using h
      simp [collapseWsAux, hc, noTrailWs]
    | cons x t' =>
      have h' : noTrailWs (x :: t') = true := by rwa [noTrailWs_cons_cons] at h
      by_cases hc : isWs c = true
      · cases b with
        | true => rw [collapseWsAux_cons_pos_true hc]; exact ih h' true
        | false =>
          rw [collapseWsAux_cons_pos_false hc]
          exact noTrailWs_cons_of_tail
            (collapseWsAux_true_ne_nil (by simp) h') (ih h' true)
      · rw [collapseWsAux_cons_neg b hc]
        exact noTrailWs_cons_of_tail
          (collapseWsAux_false_ne_nil (by simp)) (ih h' false)

lemma collapseWsAux_id {l : List Char} (hs : allWsSpc l = true) (hd : NoDub l) :
    collapseWsAux false l = l ∧
      (noLeadWs l = true → collapseWsAux true l = l) := by
  induction l with
  | nil => exact ⟨rfl, fun _ => rfl⟩
  | cons c t ih =>
    have hs' : (!isWs c || decide (c = spc)) = true ∧ allWsSpc t = true := by
      simpa [allWsSpc] using hs
    have hd' := (List.chain'_cons'.mp hd).2
    have hpair := (List.chain'_cons'.mp hd).1
    rcases ih hs'.2 hd' with ⟨ihf, iht⟩
    constructor
    · by_cases hc : isWs c = true
      · have hcspc : c = spc := by
          rcases Bool.or_eq_true_iff.mp hs'.1 with hw | hsp
          · rw [hc] at hw; simp at hw
          · simpa using hsp
        have hnl : noLeadWs t = true := by
          cases t with
          | nil => rfl
          | cons x t' =>
            have := hpair x (by simp)
            by_cases hx : isWs x = true
            · exact absurd ⟨hc, hx⟩ this
            · simpa [noLeadWs] using hx
        simp only [collapseWsAux, hc, if_true, if_false, Bool.false_eq_true]
        rw [iht hnl, hcspc]
      · simp only [collapseWsAux, hc, if_false, Bool.false_eq_true]
        rw [ihf]
    · intro hnl
      have hc : ¬ isWs c = true := by simpa [noLeadWs] using hnl
      simp only [collapseWsAux, hc, if_false, Bool.false_eq_true]
      rw [ihf]

lemma NoDub_map {f : Char → Char} (hf : ∀ c, isWs (f c) = isWs c)
    {l : List Char} (h : NoDub l) : NoDub (l.map f) := by
  unfold NoDub
  rw [List.chain'_map]
  refine h.imp ?_
  intro a b hab
  intro ⟨ha, hb⟩
  exact hab ⟨by rwa [hf] at ha, by rwa [hf] at hb⟩

lemma upperStr_allWsSpc {l : List Char} (h : allWsSpc l = true) :
    allWsSpc (upperStr l) = true := by
  unfold upperStr allWsSpc
  rw [List.all_eq_true]
  intro x hx
  rcases List.mem_map.mp hx with ⟨c, hc, rfl⟩
  have hcs := List.all_eq_true.mp h c hc
  by_cases hw : isWs c = true
  · have hcspc : c = spc := by
      rcases Bool.or_eq_true_iff.mp hcs with h1 | h2
      · rw [hw] at h1; simp at h1
      · simpa using h2
    have : upperChar spc = spc := by decide
    rw [hcspc, this]
    simp [isWs_spc]
  · have : isWs (upperChar c) = false := by
      rw [upperChar_ws]
      exact Bool.not_eq_true _ ▸ (by simpa using hw)
    simp [this]

lemma upperStr_idem (l : List Char) : upperStr (upperStr l) = upperStr l := by
  induction l with
  | nil => rfl
  | cons c t ih =>
    calc upperStr (upperStr (c :: t))
        = upperChar (upperChar c) :: upperStr (upperStr t) := rfl
      _ = upperChar c :: upperStr t := by rw [upperChar_idem, ih]

lemma normOutput_noLead (s : List Char) : noLeadWs (normOutput s) = true := by
  unfold normOutput upperStr
  rw [noLeadWs_map upperChar_ws]
  unfold collapseWs
  exact collapseWsAux_false_noLead (replaceNbsp_noLead (stripWs_noLead s))

lemma normOutput_noTrail (s : List Char) : noTrailWs (normOutput s) = true := by
  unfold normOutput upperStr
  rw [noTrailWs_map upperChar_ws]
  unfold collapseWs
  exact collapseWsAux_noTrail (replaceNbsp_noTrail (stripWs_noTrail s)) false

lemma normOutput_allWsSpc (s : List Char) : allWsSpc (normOutput s) = true := by
  unfold normOutput
  exact upperStr_allWsSpc (collapseWsAux_allWsSpc _ false)

lemma normOutput_noDub (s : List Char) : NoDub (normOutput s) := by
  unfold normOutput upperStr
  exact NoDub_map upperChar_ws (collapseWsAux_noDub _ false)

lemma normOutput_upper (s : List Char) :
    upperStr (normOutput s) = normOutput s := by
  unfold normOutput
  exact upperStr_idem _

lemma normOutput_eq_self {t : List Char} (h1 : noLeadWs t = true)
    (h2 : noTrailWs t = true) (h3 : allWsSpc t = true) (h4 : NoDub t)
    (h5 : upperStr t = t) : normOutput t = t := by
  unfold normOutput
  rw [stripWs_eq_self h1 h2, replaceNbsp_eq_self h3]
  unfold collapseWs
  rw [(collapseWsAux_id h3 h4).1, h5]

lemma normOutput_idem (s : List Char) : normOutput (normOutput s) = normOutput s :=
  normOutput_eq_self (normOutput_noLead s) (normOutput_noTrail s)
    (normOutput_allWsSpc s) (normOutput_noDub s) (normOutput_upper s)

/-- C5: the Key Normalizer is idempotent; a missing input returns the
canonical null marker; a string output carries no leading or trailing
whitespace, every whitespace character in it is the ordinary space (so no
non-breaking space survives and no two whitespace characters are
adjacent) and upper-casing it again changes nothing; a concrete
whitespace/case variant pair of one logical key normalizes identically. -/
theorem C5_normalize_key_idempotent_canonical :
    (∀ x, _normalize_key (_normalize_key x) = _normalize_key x)
    ∧ _normalize_key none = none
    ∧ (∀ s, noLeadWs (normOutput s) = true ∧ noTrailWs (normOutput s) = true
        ∧ allWsSpc (normOutput s) = true ∧ NoDub (normOutput s)
        ∧ upperStr (normOutput s) = normOutput s ∧ nbsp ∉ normOutput s)
    ∧ _normalize_key (some [spc, spc, 'a', nbsp, 'b', spc])
        = _normalize_key (some ['A', spc, 'B']) := by
  refine ⟨?_, rfl, ?_, by decide⟩
  · intro x
    cases x with
    | none => rfl
    | some s =>
      show some (normOutput (normOutput s)) = some (normOutput s)
      rw [normOutput_idem]
  · intro s
    refine ⟨normOutput_noLead s, normOutput_noTrail s, normOutput_allWsSpc s,
      normOutput_noDub s, normOutput_upper s, ?_⟩
    intro hmem
    have hx := List.all_eq_true.mp (normOutput_allWsSpc s) nbsp hmem
    rcases Bool.or_eq_true_iff.mp hx with h1 | h2
    · rw [isWs_nbsp] at h1; simp at h1
    · have : nbsp = spc := by simpa using h2
      exact absurd this (by decide)

/-! ## Aggregation additivity (claim C6) -/

lemma sumCol_append (c : String) (l1 l2 : List Rowl) :
    sumCol (l1 ++ l2) c = sumCol l1 c + sumCol l2 c := by
  unfold sumCol
  rw [List.map_append, List.sum_append]

/-- C6: the group sums of `ac_aggregate` are additive: splitting the rows
of a group into two disjoint parts, the summed total votes and each
summed party count of the whole equal the sums of the parts' sums. -/
theorem C6_aggregation_additive :
    ∀ (l1 l2 : List Rowl),
      sumCol (l1 ++ l2) TOTAL_VOTES_COL
          = sumCol l1 TOTAL_VOTES_COL + sumCol l2 TOTAL_VOTES_COL
      ∧ sumCol (l1 ++ l2) "TDP_votes"
          = sumCol l1 "TDP_votes" + sumCol l2 "TDP_votes"
      ∧ sumCol (l1 ++ l2) "YSRCP_votes"
          = sumCol l1 "YSRCP_votes" + sumCol l2 "YSRCP_votes"
      ∧ sumCol (l1 ++ l2) "BJP_votes"
          = sumCol l1 "BJP_votes" + sumCol l2 "BJP_votes"
      ∧ sumCol (l1 ++ l2) "Others_votes"
          = sumCol l1 "Others_votes" + sumCol l2 "Others_votes" := by
  intro l1 l2
  exact ⟨sumCol_append _ l1 l2, sumCol_append _ l1 l2, sumCol_append _ l1 l2,
    sumCol_append _ l1 l2, sumCol_append _ l1 l2⟩

/-! ## Recomputed shares (claims C2 and C7) -/

/-- C2 counterexample: a group whose summed total votes is 0 while its
summed TDP count is 5 gets the share +infinity, not 0: pandas float
division of a positive count by a zero total is +inf, which
`.fillna(0)` does not replace. -/
theorem C2_share_zero_total_counterexample :
    groupShare [[(TOTAL_VOTES_COL, Cell.num 0), ("TDP_votes", Cell.num 5)]]
        "TDP_votes" = PFloat.pinf
    ∧ (PFloat.pinf ≠ PFloat.num 0) := by
  constructor
  · decide
  · decide

/-- C2 (amended): each recomputed share equals (summed count / summed
total) x 100 rounded to 2 decimals; the division never raises; when the
summed total is 0 the share is 0 exactly when the summed count is 0 too
(the 0/0 NaN filled by `.fillna(0)`), a nonzero count over a zero total
giving an infinity; a summed total is never missing (min_count=0 sums). -/
theorem C2_share_recomputation_amended :
    ∀ (rows : List Rowl) (pc : String) (cnt tot : ℚ),
      shareOut cnt tot = specShareAmended cnt tot
      ∧ groupShare rows pc
          = specShareAmended (sumCol rows pc) (sumCol rows TOTAL_VOTES_COL) := by
  have key : ∀ cnt tot : ℚ, shareOut cnt tot = specShareAmended cnt tot := by
    intro cnt tot
    unfold shareOut specShareAmended floatDiv
    by_cases ht : tot = 0
    · rw [if_pos ht, if_pos ht]
      by_cases hc : cnt = 0
      · rw [if_pos hc, if_pos hc]; rfl
      · rw [if_neg hc, if_neg hc]
        by_cases hlt : 0 < cnt
        · rw [if_pos hlt]; rfl
        · rw [if_neg hlt]; rfl
    · rw [if_neg ht, if_neg ht]; rfl
  intro rows pc cnt tot
  exact ⟨key cnt tot, key _ _⟩

/-- The rounding of `.round(2)` keeps a value of [0, 100] inside
[0, 100]. -/
lemma round2_bounds {q : ℚ} (h0 : 0 ≤ q) (h1 : q ≤ 100) :
    0 ≤ round2 q ∧ round2 q ≤ 100 := by
  unfold round2
  have hl : (0:ℤ) ≤ round (q * 100) := by
    rw [round_eq]
    refine Int.le_floor.mpr ?_
    push_cast
    linarith
  have hu : round (q * 100) ≤ 10000 := by
    rw [round_eq]
    have : ⌊q * 100 + 1 / 2⌋ < (10001 : ℤ) := by
      refine Int.floor_lt.mpr ?_
      push_cast
      linarith
    omega
  constructor
  · positivity
  · rw [div_le_iff₀ (by norm_num : (0:ℚ) < 100)]
    calc ((round (q * 100) : ℤ) : ℚ) ≤ ((10000 : ℤ) : ℚ) := by exact_mod_cast hu
      _ = 100 * 100 := by norm_num

/-- C7 counterexample: with non-negative inputs and a positive summed
total, a share can still leave [0, 100] (total 10, TDP count 20 gives
200.00, as nothing ties a count column to its total column); and with a
zero summed total and a positive count the share is +infinity, not 0. -/
theorem C7_share_bounds_counterexample :
    groupShare [[(TOTAL_VOTES_COL, Cell.num 10), ("TDP_votes", Cell.num 20)]]
        "TDP_votes" = PFloat.num 200
    ∧ ¬(∃ q, groupShare [[(TOTAL_VOTES_COL, Cell.num 10),
          ("TDP_votes", Cell.num 20)]] "TDP_votes" = PFloat.num q
          ∧ 0 ≤ q ∧ q ≤ 100)
    ∧ groupShare [[(TOTAL_VOTES_COL, Cell.num 0), ("TDP_votes", Cell.num 3)]]
        "TDP_votes" ≠ PFloat.num 0 := by
  refine ⟨by decide, ?_, by decide⟩
  rintro ⟨q, hq, h0, h100⟩
  have h200 : groupShare [[(TOTAL_VOTES_COL, Cell.num 10),
      ("TDP_votes", Cell.num 20)]] "TDP_votes" = PFloat.num 200 := by decide
  rw [h200] at hq
  have : (200 : ℚ) = q := by
    have := hq
    injection this
  rw [← this] at h100
  norm_num at h100

/-- C7 (amended): a recomputed share lies in [0, 100] whenever the
group's summed count is between 0 and its summed total and the total is
positive; with a zero summed total the share is 0 provided the summed
count is 0 as well. -/
theorem C7_share_bounds_amended :
    ∀ (rows : List Rowl) (pc : String),
      0 ≤ sumCol rows pc →
      sumCol rows pc ≤ sumCol rows TOTAL_VOTES_COL →
      (0 < sumCol rows TOTAL_VOTES_COL →
        ∃ q, groupShare rows pc = PFloat.num q ∧ 0 ≤ q ∧ q ≤ 100)
      ∧ (sumCol rows TOTAL_VOTES_COL = 0 → sumCol rows pc = 0 →
          groupShare rows pc = PFloat.num 0) := by
  intro rows pc h0 hle
  constructor
  · intro hpos
    have hne : sumCol rows TOTAL_VOTES_COL ≠ 0 := ne_of_gt hpos
    refine ⟨round2 (sumCol rows pc / sumCol rows TOTAL_VOTES_COL * 100), ?_, ?_, ?_⟩
    · unfold groupShare shareOut floatDiv
      rw [if_neg hne]
      rfl
    · exact (round2_bounds
        (by positivity)
        (by
          rw [mul_comm]
          have hdiv : sumCol rows pc / sumCol rows TOTAL_VOTES_COL ≤ 1 :=
            (div_le_one hpos).mpr hle
          linarith)).1
    · exact (round2_bounds
        (by positivity)
        (by
          rw [mul_comm]
          have hdiv : sumCol rows pc / sumCol rows TOTAL_VOTES_COL ≤ 1 :=
            (div_le_one hpos).mpr hle
          linarith)).2
  · intro ht hc
    unfold groupShare
    rw [ht, hc]
    decide

/-- C7 witness: the amended bound at a concrete group (total 10, TDP
count 5, share 50.00). -/
theorem C7_share_bounds_witness :
    (0 < sumCol [[(TOTAL_VOTES_COL, Cell.num 10), ("TDP_votes", Cell.num 5)]]
        TOTAL_VOTES_COL →
      ∃ q, groupShare [[(TOTAL_VOTES_COL, Cell.num 10),
          ("TDP_votes", Cell.num 5)]] "TDP_votes" = PFloat.num q
        ∧ 0 ≤ q ∧ q ≤ 100)
    ∧ (sumCol [[(TOTAL_VOTES_COL, Cell.num 10), ("TDP_votes", Cell.num 5)]]
          TOTAL_VOTES_COL = 0 →
        sumCol [[(TOTAL_VOTES_COL, Cell.num 10), ("TDP_votes", Cell.num 5)]]
            "TDP_votes" = 0 →
        groupShare [[(TOTAL_VOTES_COL, Cell.num 10),
            ("TDP_votes", Cell.num 5)]] "TDP_votes" = PFloat.num 0) :=
  C7_share_bounds_amended
    [[(TOTAL_VOTES_COL, Cell.num 10), ("TDP_votes", Cell.num 5)]]
    "TDP_votes" (by decide) (by decide)

/-! ## The weighted caste averages (claim C1) -/

/-- C1: at the spec's own example (one constituency, totals 100 and 300,
SC percentages 20 and 60) the aggregate's `SC_pct_weighted` cell is
missing, not 50.00 - the grouped series is assigned to a frame whose
index is the integer range index, so pandas label alignment matches
nothing - although the weighted value the loop computes for the group
is exactly 50. -/
theorem C1_weighted_average_lost_by_alignment :
    (ac_aggregate exTwoVillages "AC_name" ["SC_pct"]).rows.length = 1
    ∧ getCell ((ac_aggregate exTwoVillages "AC_name" ["SC_pct"]).rows.getD 0 [])
        "SC_pct_weighted" = Cell.na
    ∧ weightedVal (groupRows (coerceWork exTwoVillages) "AC_name"
        (Cell.str ['X'])) "SC_pct" = PFloat.num 50 := by
  refine ⟨by decide, by decide, by decide⟩

/-! ## The village left merge (claim C3) -/

/-- C3 counterexample: a geometry table with the single key "A" merged
against a tabular table carrying "A" twice does not produce a one-row
left join - the cardinality validation raises `MergeError` instead. -/
theorem C3_left_join_counterexample :
    leftMerge exGeomA exTabDupA "id" "region_code"
      = Except.error "MergeError" := by
  rfl

/-- C3 (amended): whenever the tabular side has no duplicated normalized
key (otherwise the merge raises `MergeError`), the left join keeps every
geometry row: the output has exactly one row per geometry row, each
extending its geometry row, and a geometry row without a tabular match
is extended by all-missing attribute values. -/
theorem C3_left_join_amended :
    ∀ (g d : DF) (lk rk : String),
      hasDup (d.rows.map (fun r => getCell r rk)) = false →
      ∃ m, leftMerge g d lk rk = Except.ok m
        ∧ m.rows.length = g.rows.length
        ∧ ∀ i, i < g.rows.length →
            ∃ ext, m.rows.getD i [] = g.rows.getD i [] ++ ext
              ∧ (d.rows.find? (fun dr =>
                    decide (getCell dr rk = getCell (g.rows.getD i []) lk)) = none
                  → ext = nullRowFor d.cols) := by
  intro g d lk rk hnd
  have hok : leftMerge g d lk rk = Except.ok (mergeRows g d lk rk) := by
    unfold leftMerge
    by_cases hL : hasDup (g.rows.map (fun r => getCell r lk)) = true
    · simp [hL, hnd]
    · simp [hL, hnd]
  refine ⟨mergeRows g d lk rk, hok, by simp [mergeRows], ?_⟩
  intro i hi
  have hg : ∃ r, g.rows[i]? = some r := by
    cases hg : g.rows[i]? with
    | none => exact absurd hi (not_lt.mpr (List.getElem?_eq_none_iff.mp hg))
    | some r => exact ⟨r, rfl⟩
  rcases hg with ⟨r, hg⟩
  have hgd : g.rows.getD i [] = r := by
    rw [List.getD_eq_getElem?_getD, hg]
    rfl
  have hmd : (mergeRows g d lk rk).rows.getD i []
      = (match d.rows.find? (fun dr =>
            decide (getCell dr rk = getCell r lk)) with
         | some dr => r ++ dr
         | none => r ++ nullRowFor d.cols) := by
    unfold mergeRows
    rw [List.getD_eq_getElem?_getD, List.getElem?_map, hg]
    rfl
  rw [hgd]
  cases hf : d.rows.find? (fun dr =>
      decide (getCell dr rk = getCell r lk)) with
  | some dr =>
    refine ⟨dr, ?_, ?_⟩
    · rw [hmd, hf]
    · intro hnone
      exact absurd hnone (by simp)
  | none =>
    refine ⟨nullRowFor d.cols, ?_, fun _ => rfl⟩
    rw [hmd, hf]

/-- C3 witness: the amended left join at a concrete geometry table with
keys "A" and "C" and a tabular table with unique keys "A" and "B". -/
theorem C3_left_join_witness :
    ∃ m, leftMerge exGeomAC exTabAB "id" "region_code" = Except.ok m
      ∧ m.rows.length = exGeomAC.rows.length
      ∧ ∀ i, i < exGeomAC.rows.length →
          ∃ ext, m.rows.getD i [] = exGeomAC.rows.getD i [] ++ ext
            ∧ (exTabAB.rows.find? (fun dr =>
                  decide (getCell dr "region_code"
                    = getCell (exGeomAC.rows.getD i []) "id")) = none
                → ext = nullRowFor exTabAB.cols) :=
  C3_left_join_amended exGeomAC exTabAB "id" "region_code" (by decide)

/-! ## The AC dissolve (claim C4) -/

/-- C4 counterexample: a merged collection whose single row has a
missing grouping key dissolves to NO record at all - the groupby behind
`dissolve` drops missing keys by default - although the collection has
one distinct key value (the missing one). -/
theorem C4_dissolve_counterexample :
    dissolve (fun l => l.sum) [(Cell.na, (1 : Nat))] = []
    ∧ (([(Cell.na, (1 : Nat))].map Prod.fst).dedup).length = 1 := by
  constructor
  · decide
  · decide

/-- C4 (amended): the dissolve produces exactly one geometry record per
distinct NON-MISSING grouping-key value (rows with a missing key are
dropped by the dissolve, even though the Aggregator still emits a
missing-key statistics row), each record the union of its key's
geometries; the Aggregator's statistics are then left-joined onto the
dissolved records by key, one joined record per dissolved record. -/
theorem C4_dissolve_amended :
    ∀ (G : Type) (U : List G → G) (rows : List (Cell × G)) (stats : DF)
      (k : String) (df : DF) (gk : String),
      (dissolve U rows).map Prod.fst
          = ((rows.map Prod.fst).filter (fun v => decide (v ≠ Cell.na))).dedup
      ∧ ((dissolve U rows).map Prod.fst).Nodup
      ∧ (∀ p ∈ dissolve U rows,
          p.2 = U ((rows.filter (fun q => decide (q.1 = p.1))).map Prod.snd))
      ∧ (acJoinStats (dissolve U rows) stats k).length
          = (dissolve U rows).length
      ∧ ((∃ r ∈ df.rows, getCell r gk = Cell.na) →
          Cell.na ∈ distinctKeysAll df gk) := by
  intro G U rows stats k df gk
  have hmap : (dissolve U rows).map Prod.fst
      = ((rows.map Prod.fst).filter (fun v => decide (v ≠ Cell.na))).dedup := by
    unfold dissolve
    rw [List.map_map]
    exact List.map_id _
  refine ⟨hmap, ?_, ?_, ?_, ?_⟩
  · rw [hmap]; exact List.nodup_dedup _
  · intro p hp
    unfold dissolve at hp
    rcases List.mem_map.mp hp with ⟨v, _, rfl⟩
    rfl
  · unfold acJoinStats
    rw [List.length_map]
  · rintro ⟨r, hr, hna⟩
    unfold distinctKeysAll
    exact List.mem_dedup.mpr (List.mem_map.mpr ⟨r, hr, hna⟩)

/-! ## The shapefile loader (claim C8) -/

/-- C8: when the reprojection attempt fails the loader neither aborts
nor propagates the error: it returns the (key-normalized) collection
with its geometry and CRS untouched; and when the CRS is already
EPSG:4326 no reprojection happens and the collection is likewise
returned unchanged. -/
theorem C8_reprojection_best_effort :
    ∀ (G : Type) (g : GeoDF G) (key : String)
      (rp : GeoDF G → Except String (GeoDF G)) (e : String),
      (((normalizeKeyCol g key).crs ≠ some 4326 →
        rp (normalizeKeyCol g key) = Except.error e →
        load_shapefile g key rp = normalizeKeyCol g key
          ∧ (load_shapefile g key rp).geoms = g.geoms
          ∧ (load_shapefile g key rp).crs = g.crs)
      ∧ ((normalizeKeyCol g key).crs = some 4326 →
          load_shapefile g key rp = normalizeKeyCol g key
            ∧ (load_shapefile g key rp).geoms = g.geoms)) := by
  intro G g key rp e
  have hgeoms : (normalizeKeyCol g key).geoms = g.geoms := rfl
  have hcrs : (normalizeKeyCol g key).crs = g.crs := rfl
  constructor
  · intro hne herr
    have hload : load_shapefile g key rp = normalizeKeyCol g key := by
      unfold load_shapefile ensureWgs84
      rw [if_neg hne, herr]
    exact ⟨hload, by rw [hload]; exact hgeoms, by rw [hload]; exact hcrs⟩
  · intro heq
    have hload : load_shapefile g key rp = normalizeKeyCol g key := by
      unfold load_shapefile ensureWgs84
      rw [if_pos heq]
    exact ⟨hload, by rw [hload]; exact hgeoms⟩

/-! ## The frame property of ac_aggregate (claim C9) -/

lemma Store.get_set_ne (s : Store) {r i : Nat} (h : r ≠ i) (d : DF) :
    (s.set i d).get r = s.get r := by
  unfold Store.get Store.set
  rw [List.getD_eq_getElem?_getD, List.getD_eq_getElem?_getD,
    List.getElem?_set_ne (Ne.symm h)]

lemma Store.length_set (s : Store) (i : Nat) (d : DF) :
    (s.set i d).heap.length = s.heap.length := by
  unfold Store.set
  exact List.length_set s.heap i d

lemma Store.get_alloc_lt (s : Store) {r : Nat} (h : r < s.heap.length) (d : DF) :
    ((s.alloc d).1).get r = s.get r := by
  unfold Store.get Store.alloc
  rw [List.getD_eq_getElem?_getD, List.getD_eq_getElem?_getD,
    List.getElem?_append_left h]

lemma Store.alloc_snd (s : Store) (d : DF) : (s.alloc d).2 = s.heap.length := rfl

lemma Store.alloc_fst_length (s : Store) (d : DF) :
    ((s.alloc d).1).heap.length = s.heap.length + 1 := by
  unfold Store.alloc
  simp

lemma coerce_fold_frame (cs : List String) (work : Nat) :
    ∀ (s : Store) (r : Nat), r ≠ work →
      (cs.foldl (fun s c => s.set work (setColNum (s.get work) c)) s).get r
          = s.get r
      ∧ (cs.foldl (fun s c => s.set work (setColNum (s.get work) c)) s).heap.length
          = s.heap.length := by
  induction cs with
  | nil => intro s r _; exact ⟨rfl, rfl⟩
  | cons c t ih =>
    intro s r h
    have step := ih (s.set work (setColNum (s.get work) c)) r h
    simp only [List.foldl_cons]
    exact ⟨step.1.trans (Store.get_set_ne s h _),
      step.2.trans (Store.length_set s work _)⟩

lemma casteStep_frame (gk : String) (keys : List Cell) (work : Nat)
    (acc : Store × List (String × List (Cell × PFloat))) (c : String) (r : Nat)
    (h : r < acc.1.heap.length) :
    (casteStep gk keys work acc c).1.get r = acc.1.get r
    ∧ r < (casteStep gk keys work acc c).1.heap.length := by
  unfold casteStep
  dsimp only
  by_cases hc : c ∈ ((acc.1).get work).cols
  · rw [if_pos hc]
    have hne : r ≠ (acc.1.alloc
        (selectCols (acc.1.get work) [gk, c, TOTAL_VOTES_COL])).2 := by
      rw [Store.alloc_snd]
      exact Nat.ne_of_lt h
    constructor
    · dsimp only
      rw [Store.get_set_ne _ hne, Store.get_set_ne _ hne, Store.get_alloc_lt _ h]
    · dsimp only
      rw [Store.length_set, Store.length_set, Store.alloc_fst_length]
      omega
  · rw [if_neg hc]
    exact ⟨rfl, h⟩

lemma casteStep_fold_frame (gk : String) (keys : List Cell) (work : Nat)
    (cs : List String) :
    ∀ (st : Store × List (String × List (Cell × PFloat))) (r : Nat),
      r < st.1.heap.length →
      (cs.foldl (casteStep gk keys work) st).1.get r = st.1.get r
      ∧ r < (cs.foldl (casteStep gk keys work) st).1.heap.length := by
  induction cs with
  | nil => intro st r h; exact ⟨rfl, h⟩
  | cons c t ih =>
    intro st r h
    have hstep := casteStep_frame gk keys work st c r h
    have hrest := ih (casteStep gk keys work st c) r hstep.2
    simp only [List.foldl_cons]
    exact ⟨hrest.1.trans hstep.1, hrest.2⟩

/-- C9: `ac_aggregate` does not mutate its input: running the heap-level
program leaves every pre-existing reference - in particular the input
DataFrame - exactly as it was; only the fresh copies (`work` and the
per-column `wdf`s) are written. -/
theorem C9_ac_aggregate_no_mutation :
    ∀ (s : Store) (dfRef : Nat) (group_key : String) (caste_cols : List String),
      dfRef < s.heap.length →
      ((ac_aggregate_prog s dfRef group_key caste_cols).1).get dfRef
        = s.get dfRef := by
  intro s dfRef gk cc h
  unfold ac_aggregate_prog
  dsimp only
  have hne : dfRef ≠ (s.alloc (s.get dfRef)).2 := by
    rw [Store.alloc_snd]
    exact Nat.ne_of_lt h
  have h1 : dfRef < ((s.alloc (s.get dfRef)).1).heap.length := by
    rw [Store.alloc_fst_length]
    omega
  have hco := coerce_fold_frame
    (([TOTAL_VOTES_COL] ++ PARTY_COUNT_COLS) ++ PARTY_SHARE_COLS)
    ((s.alloc (s.get dfRef)).2) ((s.alloc (s.get dfRef)).1) dfRef hne
  have h2 : dfRef < ((([TOTAL_VOTES_COL] ++ PARTY_COUNT_COLS) ++ PARTY_SHARE_COLS).foldl
      (fun st c => st.set ((s.alloc (s.get dfRef)).2)
        (setColNum (st.get ((s.alloc (s.get dfRef)).2)) c))
      ((s.alloc (s.get dfRef)).1)).heap.length := by
    rw [hco.2]
    exact h1
  refine ((casteStep_fold_frame gk _ _ cc _ dfRef h2).1).trans ?_
  exact hco.1.trans (Store.get_alloc_lt s h _)

/-- C9 witness: the frame property at a concrete one-DataFrame heap. -/
theorem C9_ac_aggregate_no_mutation_witness :
    ((ac_aggregate_prog exStore 0 "AC_name" DEFAULT_CASTE_COLS).1).get 0
      = exStore.get 0 :=
  C9_ac_aggregate_no_mutation exStore 0 "AC_name" DEFAULT_CASTE_COLS (by decide)

/-! ## The fixed caste column set (claim C10) -/

lemma cols_foldl_setColNum (cs : List String) :
    ∀ df : DF, (cs.foldl setColNum df).cols = df.cols := by
  induction cs with
  | nil => intro df; rfl
  | cons c t ih =>
    intro df
    rw [List.foldl_cons, ih]
    unfold setColNum
    by_cases h : c ∈ df.cols
    · rw [if_pos h]
    · rw [if_neg h]

lemma cols_coerceWork (df : DF) : (coerceWork df).cols = df.cols :=
  cols_foldl_setColNum _ df

lemma append_weighted_ne {c f : String}
    (hne : "_weighted".data ≠ f.data.drop (f.length - 9)) :
    c ++ "_weighted" ≠ f := by
  intro h
  have h9 : "_weighted".length = 9 := rfl
  have hlen : c.length + 9 = f.length := by
    have h2 := congrArg String.length h
    rw [String.length_append, h9] at h2
    exact h2
  have hdata : c.data ++ "_weighted".data = f.data := by
    have h2 := congrArg String.data h
    rwa [String.data_append] at h2
  apply hne
  rw [← hdata]
  have hcl : c.data.length = f.length - 9 := by
    have hc : c.length = c.data.length := rfl
    omega
  rw [← hcl, List.drop_left]

lemma weighted_not_fixed (c : String) :
    ∀ f ∈ (["AC_key", TOTAL_VOTES_COL] ++ PARTY_COUNT_COLS)
        ++ share_map.map Prod.fst,
      c ++ "_weighted" ≠ f := by
  intro f hf
  have hcases : f = "AC_key" ∨ f = "total_votes" ∨ f = "TDP_votes"
      ∨ f = "YSRCP_votes" ∨ f = "BJP_votes" ∨ f = "Others_votes"
      ∨ f = "TDP_share" ∨ f = "YSRCP_share" ∨ f = "BJP_share"
      ∨ f = "Others_share" := by
    simpa [TOTAL_VOTES_COL, PARTY_COUNT_COLS, share_map] using hf
  rcases hcases with rfl | rfl | rfl | rfl | rfl | rfl | rfl | rfl | rfl | rfl
  all_goals exact append_weighted_ne (by decide)

lemma append_weighted_inj {a b : String}
    (h : a ++ "_weighted" = b ++ "_weighted") : a = b := by
  have h2 := congrArg String.data h
  rw [String.data_append, String.data_append] at h2
  have h3 := List.append_cancel_right h2
  cases a with
  | mk la =>
    cases b with
    | mk lb => exact congrArg String.mk h3

/-- C10: run on the auto-detected caste columns, the aggregate's column
list is the fixed key/count/share columns followed by exactly one
weighted column per element of the fixed six-name caste list present in
the input - and a weighted column exists for a name if and only if the
name is one of those six AND a column of the input, so a column outside
the fixed list (whatever its suffix) is never aggregated. -/
theorem C10_fixed_caste_columns :
    ∀ (df : DF) (gk : String),
      (ac_aggregate df gk (casteColsOf df)).cols
        = (["AC_key", TOTAL_VOTES_COL] ++ PARTY_COUNT_COLS)
            ++ share_map.map Prod.fst
            ++ (DEFAULT_CASTE_COLS.filter (fun c => decide (c ∈ df.cols))).map
                (fun c => c ++ "_weighted")
      ∧ ∀ c : String,
          ((c ++ "_weighted") ∈ (ac_aggregate df gk (casteColsOf df)).cols
            ↔ (c ∈ DEFAULT_CASTE_COLS ∧ c ∈ df.cols)) := by
  intro df gk
  have hpresent : (casteColsOf df).filter
        (fun c => decide (c ∈ (coerceWork df).cols))
      = DEFAULT_CASTE_COLS.filter (fun c => decide (c ∈ df.cols)) := by
    unfold casteColsOf
    simp only [cols_coerceWork]
    exact List.filter_eq_self.mpr
      (fun a ha => @List.of_mem_filter _ (fun c => decide (c ∈ df.cols))
        a DEFAULT_CASTE_COLS ha)
  have hcols : (ac_aggregate df gk (casteColsOf df)).cols
      = (["AC_key", TOTAL_VOTES_COL] ++ PARTY_COUNT_COLS)
          ++ share_map.map Prod.fst
          ++ (DEFAULT_CASTE_COLS.filter (fun c => decide (c ∈ df.cols))).map
              (fun c => c ++ "_weighted") := by
    unfold ac_aggregate
    dsimp only
    rw [hpresent]
  refine ⟨hcols, ?_⟩
  intro c
  rw [hcols]
  constructor
  · intro hmem
    rcases List.mem_append.mp hmem with hfix | hmap
    · exact absurd rfl (weighted_not_fixed c _ hfix)
    · rcases List.mem_map.mp hmap with ⟨x, hx, hxe⟩
      have hxc : x = c := append_weighted_inj hxe
      subst hxc
      refine ⟨List.mem_of_mem_filter hx, ?_⟩
      have := List.of_mem_filter hx
      simpa using this
  · rintro ⟨h1, h2⟩
    apply List.mem_append.mpr
    right
    exact List.mem_map.mpr
      ⟨c, List.mem_filter.mpr ⟨h1, by simpa using h2⟩, rfl⟩

end Claims

end APMap
